import Mathlib

/-!
Verification of the GitSleuth chunking / retrieval-augmented query engine.

The definitions below are a shallow embedding of the Python sources:
  backend/services/semantic_chunker.py
  backend/services/rag_service.py
  backend/services/conversation_manager.py
  backend/models/schemas.py

Text is modelled as `List Char`; Python string helpers (`strip`, `splitlines`,
`lower`, the `in` substring test) are embedded below.  External collaborators
(the OpenAI embedding model, ChromaDB, `ast.parse`, the regular-expression
engine) are passed in as explicit data or oracle functions; everything that the
repository's own code computes is translated directly from the source.
-/

namespace GitSleuth

/-- The double-quote character. -/
def quoteD : Char := Char.ofNat 34

/-- The single-quote character. -/
def quoteS : Char := Char.ofNat 39

/-- The backslash character. -/
def bslash : Char := Char.ofNat 92

/-- The opening-brace character. -/
def obrace : Char := Char.ofNat 123

/-- The closing-brace character. -/
def cbrace : Char := Char.ofNat 125

/-- The opening-parenthesis character. -/
def oparen : Char := Char.ofNat 40

/-- The closing-parenthesis character. -/
def cparen : Char := Char.ofNat 41

/-- The newline character. -/
def nlChar : Char := Char.ofNat 10

/-- The carriage-return character. -/
def crChar : Char := Char.ofNat 13

/-- Python `str.isspace` on a single character, for the ASCII whitespace
characters Python's `strip`/`split` recognise: space, tab, newline, carriage
return, vertical tab, form feed. -/
def pyIsSpace (c : Char) : Bool :=
  c == Char.ofNat 32 || c == Char.ofNat 9 || c == Char.ofNat 10 ||
  c == Char.ofNat 13 || c == Char.ofNat 11 || c == Char.ofNat 12

/-- Python `str.strip()`: drop leading and trailing whitespace. -/
def pyStrip (s : List Char) : List Char :=
  ((s.dropWhile pyIsSpace).reverse.dropWhile pyIsSpace).reverse

/-- Normalise the line boundaries `\r\n` and `\r` to `\n` (first phase of
`str.splitlines()`). -/
def normNewlines : List Char → List Char
  | [] => []
  | [c] => if c == crChar || c == nlChar then [nlChar] else [c]
  | c :: d :: rest =>
    if c == crChar then
      if d == nlChar then nlChar :: normNewlines rest
      else nlChar :: normNewlines (d :: rest)
    else if c == nlChar then nlChar :: normNewlines (d :: rest)
    else c :: normNewlines (d :: rest)

/-- Split on `\n`, with no extra empty line after a trailing newline (second
phase of `str.splitlines()`); `acc` is the reversed current line. -/
def splitOnNl : List Char → List Char → List (List Char)
  | [], acc => [acc.reverse]
  | c :: rest, acc =>
    if c == nlChar then
      acc.reverse :: (if rest.isEmpty then [] else splitOnNl rest [])
    else splitOnNl rest (c :: acc)

/-- Python `str.splitlines()` for the line boundaries `\n`, `\r` and `\r\n`
(the only boundaries occurring in this development). -/
def pySplitlines (s : List Char) : List (List Char) :=
  if s.isEmpty then [] else splitOnNl (normNewlines s) []

/-- Python `"\n".join(lines)`. -/
def joinNL : List (List Char) → List Char
  | [] => []
  | [l] => l
  | l :: rest => l ++ nlChar :: joinNL rest

/-- Python `str.lower()` (ASCII). -/
def pyLower (s : List Char) : List Char := s.map Char.toLower

/-- `leadMatch needle hay` holds when `needle` is an initial segment of `hay`. -/
def leadMatch : List Char → List Char → Bool
  | [], _ => true
  | _ :: _, [] => false
  | c :: cs, d :: ds => c == d && leadMatch cs ds

/-- Python's substring test `needle in hay`. -/
def hasSub (needle : List Char) : List Char → Bool
  | [] => leadMatch needle []
  | d :: rest => leadMatch needle (d :: rest) || hasSub needle rest

/-- One retrieval unit produced by `SemanticChunker`
(`backend/services/semantic_chunker.py`).  The `type` dictionary key of the
source is the field `type`; `chunk_id` and `chunk_size` are filled in by the
metadata pass at the end of `chunk_document`. -/
structure Chunk where
  content : List Char
  file_path : List Char
  start_line : Nat
  end_line : Nat
  type : String
  language : String
  is_semantic : Bool
  chunk_id : Nat
  chunk_size : Nat
deriving DecidableEq, Repr

/-- Ceiling division `(n + s - 1) / s`, the number of iterations of Python's
`range(0, n, s)`. -/
def ceilDiv (n s : Nat) : Nat := (n + s - 1) / s

/-- Python `range(0, n, s)`: the list `[0, s, 2*s, ...]` of indices below `n`. -/
def pyRange0 (n s : Nat) : List Nat :=
  (List.range (ceilDiv n s)).map (· * s)

/-- `"\n".join(lines[i:i+step]).strip()` -- the text of one fallback window. -/
def fbSection (lines : List (List Char)) (step i : Nat) : List Char :=
  pyStrip (joinNL ((lines.drop i).take step))

/-- The chunk emitted for the fallback window starting at line index `i`
(`none` when the window's stripped text is empty and the `if` skips it). -/
def fbChunk (lines : List (List Char)) (step : Nat) (file_path : List Char)
    (i : Nat) : Option Chunk :=
  if (fbSection lines step i).length > 0 then
    some { content := fbSection lines step i
           file_path := file_path
           start_line := i + 1
           end_line := min (i + step) lines.length
           type := "text_section"
           language := "text"
           is_semantic := false
           chunk_id := 0
           chunk_size := 0 }
  else none

/-- `SemanticChunker._fallback_chunking` (semantic_chunker.py lines 249-265):
fixed-size line windows of `step = max(10, len(lines) // 2)` lines; a window
whose joined text strips to the empty string is not emitted. -/
def fallback_chunking (content : List Char) (file_path : List Char) : List Chunk :=
  let lines := pySplitlines content
  let step := max 10 (lines.length / 2)
  (pyRange0 lines.length step).filterMap (fbChunk lines step file_path)

/-- State of `SemanticChunker._find_block_end` (semantic_chunker.py lines
214-246): running bracket count, in-string flag, pending-escape flag. -/
structure BState where
  brace_count : Int
  in_string : Bool
  escape_next : Bool
deriving DecidableEq, Repr

/-- Initial state of `_find_block_end`. -/
def bInit : BState := { brace_count := 0, in_string := false, escape_next := false }

/-- Result of processing one character in `_find_block_end`: either the updated
state, or `stop` for the `return i + 1` exit when the count falls to zero. -/
inductive StepRes where
  | cont (st : BState)
  | stop
deriving DecidableEq, Repr

/-- The per-character transition of `_find_block_end`, translated clause by
clause from the Python loop body. -/
def stepChar (st : BState) (c : Char) : StepRes :=
  if st.escape_next then .cont { st with escape_next := false }
  else if c == bslash then .cont { st with escape_next := true }
  else if (c == quoteD || c == quoteS) && !st.in_string then
    .cont { st with in_string := true }
  else if (c == quoteD || c == quoteS) && st.in_string then
    .cont { st with in_string := false }
  else if !st.in_string then
    if c == obrace || c == oparen then
      .cont { st with brace_count := st.brace_count + 1 }
    else if c == cbrace || c == cparen then
      let cnt := st.brace_count - 1
      if cnt == 0 then .stop else .cont { st with brace_count := cnt }
    else .cont st
  else .cont st

/-- Run `stepChar` over one line; `none` means the loop returned -- the block
end was found inside this line. -/
def processLine (st : BState) : List Char → Option BState
  | [] => some st
  | c :: cs =>
    match stepChar st c with
    | .stop => none
    | .cont st' => processLine st' cs

/-- The line loop of `_find_block_end`: `rem` are the lines from the current
index `i` on, and `total = len(lines)` is returned at end-of-file. -/
def findBlockEndAux (st : BState) (rem : List (List Char)) (i total : Nat) : Nat :=
  match rem with
  | [] => total
  | l :: rest =>
    match processLine st l with
    | none => i + 1
    | some st' => findBlockEndAux st' rest (i + 1) total

/-- `SemanticChunker._find_block_end(lines, start_line)`. -/
def find_block_end (lines : List (List Char)) (start_line : Nat) : Nat :=
  findBlockEndAux bInit (lines.drop start_line) start_line lines.length

/-- One step of the quoted-bracket mask: an unescaped bracket character read
while the in-string flag is set is replaced by the letter `x`; every other
character is kept, and the state advances exactly as in `stepChar` (a counted
closing bracket that stops the scan keeps the state unchanged -- nothing after
it is ever inspected by `_find_block_end`). -/
def maskStep (st : BState) (c : Char) : BState × Char :=
  if !st.escape_next && !(c == bslash) && !(c == quoteD) && !(c == quoteS) &&
      st.in_string && (c == obrace || c == oparen || c == cbrace || c == cparen) then
    (st, 'x')
  else
    match stepChar st c with
    | .cont st' => (st', c)
    | .stop => (st, c)

/-- Mask one line, threading the scanner state. -/
def maskLine (st : BState) : List Char → BState × List Char
  | [] => (st, [])
  | c :: cs =>
    let p := maskStep st c
    let q := maskLine p.1 cs
    (q.1, p.2 :: q.2)

/-- Mask a list of lines, threading the scanner state across lines exactly as
`_find_block_end` does. -/
def maskLines (st : BState) : List (List Char) → List (List Char)
  | [] => []
  | l :: rest =>
    let p := maskLine st l
    p.2 :: maskLines p.1 rest

/-- A Python AST node as consumed by `_extract_python_chunks`: its class name
(`type(node).__name__`), its `lineno`, and its `body` child list.  `ast.parse`
is an external collaborator; its output is supplied to the embedding as a value
of this type. -/
inductive PyNode where
  | mk (kind : String) (lineno : Nat) (body : List PyNode)
deriving Repr

/-- Class name of a node. -/
def PyNode.kind : PyNode → String
  | .mk k _ _ => k

/-- `lineno` of a node. -/
def PyNode.lineno : PyNode → Nat
  | .mk _ l _ => l

/-- `body` of a node. -/
def PyNode.body : PyNode → List PyNode
  | .mk _ _ b => b

mutual
/-- Number of nodes in a tree (termination measure for `walk`). -/
def PyNode.size : PyNode → Nat
  | .mk _ _ body => 1 + sizeNodes body

/-- Number of nodes in a forest. -/
def sizeNodes : List PyNode → Nat
  | [] => 0
  | n :: rest => PyNode.size n + sizeNodes rest
end

theorem sizeNodes_append (a b : List PyNode) :
    sizeNodes (a ++ b) = sizeNodes a + sizeNodes b := by
  induction a with
  | nil => simp [sizeNodes]
  | cons n rest ih => simp [sizeNodes, ih]; omega

/-- Worker for `walk`: breadth-first traversal with an explicit fuel.  Each
step removes one node from the forest, so fuel equal to the total node count
is never exhausted; the `0, _ :: _` arm is unreachable at `walk`'s call. -/
def walkFuel : Nat → List PyNode → List PyNode
  | _, [] => []
  | 0, _ :: _ => []
  | fuel + 1, n :: rest => n :: walkFuel fuel (rest ++ n.body)

/-- `ast.walk`: breadth-first traversal of the AST, yielding each node before
its descendants and processing the queue front to back. -/
def walk (queue : List PyNode) : List PyNode :=
  walkFuel (sizeNodes queue) queue

mutual
/-- Every `lineno` in the tree is at least 1 (true of all `ast.parse`
output; CPython line numbers are 1-based). -/
def PyNode.linesPos : PyNode → Bool
  | .mk _ lineno body => decide (1 ≤ lineno) && nodesLinesPos body

/-- `PyNode.linesPos` over a forest. -/
def nodesLinesPos : List PyNode → Bool
  | [] => true
  | n :: rest => n.linesPos && nodesLinesPos rest
end

/-- The `isinstance(node, (ast.FunctionDef, ast.AsyncFunctionDef, ast.ClassDef))`
test of `_extract_python_chunks`. -/
def isDefNode (n : PyNode) : Bool :=
  n.kind == "FunctionDef" || n.kind == "AsyncFunctionDef" || n.kind == "ClassDef"

/-- `max(getattr(node.body[-1], 'lineno', node.lineno), node.lineno)`.  For the
output of `ast.parse` the `body` of a definition node is never empty; the
`none` arm mirrors `getattr`'s default. -/
def nodeEndLine (n : PyNode) : Nat :=
  match n.body.getLast? with
  | some last => max last.lineno n.lineno
  | none => n.lineno

/-- The chunk emitted by `_extract_python_chunks` for one walked node:
definition nodes whose `lines[node.lineno - 1:end_line]` block strips to more
than 20 characters. -/
def pyNodeChunk (lines : List (List Char)) (file_path : List Char)
    (node : PyNode) : Option Chunk :=
  if isDefNode node then
    let start_line := node.lineno - 1
    let end_line := nodeEndLine node
    let code_block := joinNL ((lines.drop (node.lineno - 1)).take (end_line - (node.lineno - 1)))
    if (pyStrip code_block).length > 20 then
      some { content := code_block
             file_path := file_path
             start_line := start_line + 1
             end_line := end_line
             type := node.kind
             language := "python"
             is_semantic := true
             chunk_id := 0
             chunk_size := 0 }
    else none
  else none

/-- `SemanticChunker._extract_python_chunks` (semantic_chunker.py lines 53-82).
`parse` is the outcome of `ast.parse(content)`: `none` models a raised
`SyntaxError` (the `except` arm), `some tree` the parsed `Module` node. -/
def extract_python_chunks (parse : Option PyNode) (content : List Char)
    (file_path : List Char) : List Chunk :=
  match parse with
  | none => fallback_chunking content file_path
  | some tree =>
    let chunks := (walk [tree]).filterMap (pyNodeChunk (pySplitlines content) file_path)
    if chunks.isEmpty then fallback_chunking content file_path else chunks

/-- One signature pattern of the regex-based extractors: the pattern's truth on
a stripped line is supplied by a `test` oracle (the `re` module is an
external collaborator), together with the chunk type recorded on a match. -/
structure Matcher where
  test : List Char → Bool
  ctype : String

/-- The shared shape of `_extract_javascript_chunks`, `_extract_typescript_chunks`,
`_extract_java_chunks` and `_extract_cpp_chunks` (semantic_chunker.py lines
85-211): scan every line against every pattern, close each match with
`_find_block_end`, keep blocks longer than 20 stripped characters, and fall
back to `_fallback_chunking` when nothing was found. -/
def lineScanChunk (lines : List (List Char)) (language : String)
    (file_path : List Char) (i : Nat) (m : Matcher) : Option Chunk :=
  if m.test (pyStrip (lines.getD i [])) then
    let end_line := find_block_end lines i
    if i < end_line then
      let code_block := joinNL ((lines.drop i).take (end_line - i))
      if (pyStrip code_block).length > 20 then
        some { content := code_block
               file_path := file_path
               start_line := i + 1
               end_line := end_line
               type := m.ctype
               language := language
               is_semantic := true
               chunk_id := 0
               chunk_size := 0 }
      else none
    else none
  else none

def lineScanChunks (patterns : List Matcher) (language : String)
    (content : List Char) (file_path : List Char) : List Chunk :=
  let lines := pySplitlines content
  let chunks := (List.range lines.length).flatMap (fun i =>
    patterns.filterMap (lineScanChunk lines language file_path i))
  if chunks.isEmpty then fallback_chunking content file_path else chunks

/-- `SemanticChunker.EXTENSION_MAP` plus the lowercasing lookup of
`get_language_from_extension`. -/
def get_language_from_extension (ext : List Char) : Option String :=
  let e := pyLower ext
  if e = ".py".data then some "python"
  else if e = ".js".data then some "javascript"
  else if e = ".jsx".data then some "javascript"
  else if e = ".ts".data then some "typescript"
  else if e = ".tsx".data then some "typescript"
  else if e = ".java".data then some "java"
  else if e = ".c".data then some "cpp"
  else if e = ".cpp".data then some "cpp"
  else if e = ".h".data then some "cpp"
  else if e = ".hpp".data then some "cpp"
  else none

/-- The external collaborators a `chunk_document` call depends on: the outcome
of `ast.parse` and the `re.match` oracles for the four regex-based languages. -/
structure ChunkOracles where
  parse : Option PyNode
  js : List Matcher
  ts : List Matcher
  java : List Matcher
  cpp : List Matcher

/-- The metadata pass at the end of `chunk_document`: `chunk_id` is the
emission index and `chunk_size` the content length. -/
def withMeta (chunks : List Chunk) : List Chunk :=
  chunks.mapIdx (fun i ch => { ch with chunk_id := i, chunk_size := ch.content.length })

/-- `SemanticChunker.chunk_document(content, file_path, file_type)`
(semantic_chunker.py lines 23-50). -/
def chunk_document (o : ChunkOracles) (content : List Char)
    (file_path : List Char) (file_type : List Char) : List Chunk :=
  if content.isEmpty || (pyStrip content).length < 10 then []
  else
    let lang := get_language_from_extension file_type
    let chunks :=
      if lang = some "python" then extract_python_chunks o.parse content file_path
      else if lang = some "javascript" then lineScanChunks o.js "javascript" content file_path
      else if lang = some "typescript" then lineScanChunks o.ts "typescript" content file_path
      else if lang = some "java" then lineScanChunks o.java "java" content file_path
      else if lang = some "cpp" then lineScanChunks o.cpp "cpp" content file_path
      else fallback_chunking content file_path
    withMeta chunks

/-! ## RAGService (backend/services/rag_service.py) -/

/-- The metadata fields of a retrieved candidate that `RAGService.query` reads:
`file_name` and `file_path` drive the boosting pass, `chunk_id` keeps distinct
chunks of one file distinguishable under the dictionary-equality lookup
`retrieved_metas.index(meta)`. -/
structure Meta where
  file_name : List Char
  file_path : List Char
  chunk_id : Nat
deriving DecidableEq, Repr

/-- One entry of the three parallel lists `retrieved_docs`, `retrieved_metas`,
`distances` returned by the vector store (a pop/insert in the source moves the
same index in all three, so the triple moves as a unit). -/
structure Candidate where
  doc : List Char
  meta : Meta
  dist : ℚ
deriving DecidableEq, Repr

/-- `file_name.rsplit('.', 1)[0]` on an already lowercased name: everything
before the last dot (the name itself if it has no dot). -/
def baseName (file_name : List Char) : List Char :=
  if file_name.contains '.' then
    (((file_name.reverse.dropWhile (fun c => !(c == '.'))).drop 1)).reverse
  else file_name

/-- The boosting test of `RAGService.query` (rag_service.py lines 254-258):
does the lowercased question contain the candidate's lowercased file name,
full relative path, or extension-stripped base name as a literal substring? -/
def qualifies (question_lower : List Char) (m : Meta) : Bool :=
  let file_name := pyLower m.file_name
  let file_path := pyLower m.file_path
  let file_base := baseName file_name
  hasSub file_name question_lower || hasSub file_path question_lower ||
    hasSub file_base question_lower

/-- `lst.pop(idx)` followed by `lst.insert(0, _)`: move the element at `idx`
to the front (identity when `idx` is out of range, which never happens in
`query`). -/
def promoteAt (l : List Candidate) (idx : Nat) : List Candidate :=
  match l.get? idx with
  | none => l
  | some x => x :: (l.take idx ++ l.drop (idx + 1))

/-- The boosting pass of `RAGService.query` (rag_service.py lines 252-264):
scan candidates in retrieval order, and for the first one whose metadata
qualifies, move the triple at `retrieved_metas.index(meta)` -- the first
index carrying an equal metadata dictionary -- to position 0, then break. -/
def boostPass (question : List Char) (cands : List Candidate) : List Candidate :=
  let question_lower := pyLower question
  match cands.find? (fun c => qualifies question_lower c.meta) with
  | none => cands
  | some c => promoteAt cands (cands.findIdx (fun d => d.meta == c.meta))

/-- The re-rank of `RAGService.query` (rag_service.py lines 266-271):
`sorted(zip(docs, metas, distances), key=lambda x: x[2])`.  Python's `sorted`
is stable and ascending; `List.insertionSort` with the non-strict key order is
exactly that stable sort. -/
def rerank (cands : List Candidate) : List Candidate :=
  cands.insertionSort (fun a b => a.dist ≤ b.dist)

/-- The full ranking produced by `RAGService.query` before context assembly:
the boosting pass followed by the distance re-rank (sorting the empty list is
the identity, so the `if retrieved_docs` guard needs no separate case). -/
def finalRanking (question : List Char) (cands : List Candidate) : List Candidate :=
  rerank (boostPass question cands)

/-- The local `compute_confidence(answer, sources)` inside `RAGService.query`
(rag_service.py lines 287-298).  Despite its docstring, the code reads only
`len(answer)`; the `sources` argument is ignored. -/
def compute_confidence (answer : List Char) (_sources : List Meta) : String :=
  if answer.length > 50 then "high"
  else if answer.length > 30 then "medium"
  else "low"

/-- Modelled from the spec (section 4.5), for comparison with the code's
`compute_confidence`: mean retrieved distance below 0.25 gives `high`, below
0.5 gives `medium`, otherwise `low`, and a retrieved count of 0 gives `low`
regardless of the answer. -/
def confidenceSpec (distances : List ℚ) (retrieved_count : Nat) : String :=
  if retrieved_count = 0 then "low"
  else
    let mean := distances.sum / distances.length
    if mean < 1/4 then "high"
    else if mean < 1/2 then "medium"
    else "low"

/-- A document queued for embedding in `create_index`. -/
structure Doc where
  page_content : List Char
  id : List Char
deriving DecidableEq, Repr

/-- The embed-and-store loop of `RAGService.create_index` (rag_service.py lines
187-207): fixed batches of 512 chunks; `batchOk` tells whether the external
embed/`collection.add` call for the batch starting at a given offset succeeds
(a failure is logged and the batch skipped).  The first component is the list
of chunks actually stored in the collection; the second is the function's
return value `len(chunks)`, computed before the loop and unaffected by batch
failures. -/
def create_index (chunks : List Doc) (batchOk : Nat → Bool) : List Doc × Nat :=
  ((pyRange0 chunks.length 512).flatMap (fun batch_start =>
      if batchOk batch_start then (chunks.drop batch_start).take 512 else []),
   chunks.length)

/-- A raised Python exception, identified by its class name and message. -/
structure PyError where
  cls : String
  msg : String
deriving DecidableEq, Repr

/-- The index-existence guard at the top of `RAGService.query` (rag_service.py
lines 226-231): `chroma_client.get_collection(f"repo_{session_id}")` raises if
the collection is absent, and the `except` arm re-raises the untyped
`Exception("Repo not indexed")`. -/
def queryIndexGuard (collections : List String) (session_id : String) :
    Except PyError Unit :=
  if ("repo_" ++ session_id) ∈ collections then Except.ok ()
  else Except.error { cls := "Exception", msg := "Repo not indexed" }

/-- The class names of the typed exception taxonomy defined in
`backend/utils/exceptions.py`. -/
def gitSleuthExceptionClasses : List String :=
  ["GitSleuthException", "RepositoryError", "IndexingError", "QueryError",
   "ValidationError", "ConfigurationError", "RateLimitError",
   "ConversationError", "ChunkingError", "EmbeddingError", "DatabaseError"]

/-- The system message of `RAGService.prompt_template` (rag_service.py lines
81-88). -/
def system_prompt : String :=
  "You are an expert code analyst. Answer questions based on the provided code context.\n        Guidelines:\n        1. Use ONLY the provided code context to answer questions.\n        2. Reference exact file names and line numbers when possible.\n        3. Focus on code structure and functionality.\n        4. Provide clear, actionable insights.\n        5. If the context doesn't contain enough information, say so clearly.\n        6. Do not include confidence ratings in your response - the system will handle that."

/-- `f"{answer}\n\n[CONFIDENCE: {confidence}]"` (rag_service.py line 313). -/
def confidenceTag (confidence : String) : List Char :=
  ("[CONFIDENCE: ").data ++ confidence.data ++ [']']

/-- The tail of `RAGService.query` after the LLM call (rag_service.py lines
310-317): strip the raw model output, compute the confidence label, append the
confidence tag, and return answer/sources/confidence/conversation id. -/
structure QueryResponse where
  answer : List Char
  confidence : String
  conversation_id : String
deriving Repr

/-- Build the `query` return value from the raw LLM output
(`response.content`), the gathered source metadata and the conversation id. -/
def query_response (raw : List Char) (sources : List Meta)
    (conversation_id : String) : QueryResponse :=
  let answer := pyStrip raw
  let confidence := compute_confidence answer sources
  { answer := answer ++ (List.cons nlChar (List.cons nlChar [])) ++ confidenceTag confidence
    confidence := confidence
    conversation_id := conversation_id }

/-! ## ConversationManager (backend/services/conversation_manager.py) -/

/-- A `collections.deque`, as constructed by `create_conversation`. -/
structure PyDeque (α : Type) where
  items : List α
  maxlen : Option Nat
deriving Repr

/-- pydantic validation of the `messages: List[ConversationMessage]` field of
`ConversationHistory` (backend/models/schemas.py lines 35-39): any sequence --
including the `deque(maxlen=...)` passed by `create_conversation` -- is
coerced to a plain Python `list`; the deque's `maxlen` bound is not retained
by the model field. -/
def pydanticListField {α : Type} (d : PyDeque α) : List α := d.items

/-- A stored conversation message (timestamps, which come from the external
clock, are omitted). -/
structure ConversationMessage where
  role : String
  content : List Char
  confidence : Option String
deriving DecidableEq, Repr

/-- A `ConversationHistory` record as held by `ConversationManager`. -/
structure ConversationHistory where
  session_id : String
  messages : List ConversationMessage
deriving DecidableEq, Repr

/-- The conversation store: the manager's `conversations` dict (an association
list keyed by conversation id) and its `max_messages` bound. -/
structure ConversationManager where
  conversations : List (String × ConversationHistory)
  max_messages : Nat
deriving Repr

/-- The default `max_messages` of `ConversationManager.__init__` (the value
used by `RAGService`, which constructs `ConversationManager()`). -/
def defaultMaxMessages : Nat := 1000

/-- A fresh manager. -/
def ConversationManager.empty (max_messages : Nat) : ConversationManager :=
  { conversations := [], max_messages := max_messages }

/-- `ConversationManager.create_conversation` (conversation_manager.py lines
26-41): the new record's `messages` field is
`ConversationHistory(messages=deque(maxlen=self.max_messages), ...)` -- a
bounded deque that pydantic validation immediately coerces to a plain list.
The fresh `uuid4` id is supplied by the caller (an external collaborator). -/
def create_conversation (m : ConversationManager) (conversation_id : String)
    (session_id : String) : ConversationManager :=
  let conversation : ConversationHistory :=
    { session_id := session_id
      messages := pydanticListField { items := [], maxlen := some m.max_messages } }
  { m with conversations := (conversation_id, conversation) :: m.conversations }

/-- Python `re.search(r"\[CONFIDENCE:\s*(high|medium|low)\]", s)` at one
position: the literal tag, optional whitespace, one of the three labels, `]`. -/
def confTagHere (s : List Char) : Option String :=
  if leadMatch ("[confidence:").data s then
    let rest := (s.drop 12).dropWhile pyIsSpace
    if leadMatch ("high]").data rest then some "high"
    else if leadMatch ("medium]").data rest then some "medium"
    else if leadMatch ("low]").data rest then some "low"
    else none
  else none

/-- Leftmost match of the confidence-tag pattern (`re.search` semantics). -/
def findConfTag : List Char → Option String
  | [] => none
  | c :: rest =>
    match confTagHere (c :: rest) with
    | some v => some v
    | none => findConfTag rest

/-- `ConversationManager.estimate_confidence` (conversation_manager.py lines
76-90): an inline `[CONFIDENCE: ...]` tag wins; otherwise keyword heuristics
on the lowercased answer. -/
def estimate_confidence (answer : List Char) : String :=
  let answer_lower := pyLower answer
  match findConfTag answer_lower with
  | some v => v
  | none =>
    if hasSub ("i am confident").data answer_lower ||
        hasSub ("definitely").data answer_lower ||
        hasSub ("certainly").data answer_lower ||
        hasSub ("without doubt").data answer_lower then "high"
    else if hasSub ("probably").data answer_lower ||
        hasSub ("likely").data answer_lower ||
        hasSub ("may").data answer_lower ||
        hasSub ("might").data answer_lower then "medium"
    else "low"

/-- `ConversationManager.add_message` (conversation_manager.py lines 43-74):
look up the conversation (`False` when absent), normalise the confidence
argument (auto-estimated for assistant messages, `None` for user messages),
strip the content, and `conversation.messages.append(message)` -- a plain
list append, since pydantic turned the bounded deque into a list. -/
def add_message (m : ConversationManager) (conversation_id : String)
    (role : String) (content : List Char) (confidence : Option String) :
    ConversationManager × Bool :=
  match m.conversations.lookup conversation_id with
  | none => (m, false)
  | some conversation =>
    let confidence' :=
      if confidence == some "high" || confidence == some "medium" ||
          confidence == some "low" then confidence
      else if role == "assistant" then some (estimate_confidence content)
      else none
    let message : ConversationMessage :=
      { role := role, content := pyStrip content, confidence := confidence' }
    let conversation' := { conversation with messages := conversation.messages ++ [message] }
    ({ m with conversations := m.conversations.map (fun p =>
        if p.1 = conversation_id then (p.1, conversation') else p) },
     true)

/-! ## Concrete inputs used by the counterexamples and witnesses -/

/-- Iterate `add_message` with role `user` (so no confidence estimation runs)
`n` times on one conversation. -/
def addUserMessages (m : ConversationManager) (conversation_id : String) :
    Nat → ConversationManager
  | 0 => m
  | n + 1 =>
    (add_message (addUserMessages m conversation_id n) conversation_id
      "user" ("hello").data none).1

/-- The `ast.parse` output for `pyExampleContent`: a module holding a class
whose body is a method, followed by a top-level function (linenos as produced
by CPython's parser on that source). -/
def pyExampleTree : PyNode :=
  .mk "Module" 1
    [ .mk "ClassDef" 1 [ .mk "FunctionDef" 2 [ .mk "Return" 3 [] ] ],
      .mk "FunctionDef" 4 [ .mk "Return" 5 [] ] ]

/-- A five-line Python file: `class A:` with method `m` on lines 1-3 and a
top-level `def f` on lines 4-5. -/
def pyExampleContent : List Char :=
  ("class A:\n    def m(self):\n        return 12345678\ndef f():\n    return \"abcdefghijklmnop\"").data

/-- Oracles for chunking `pyExampleContent`: the parse tree above (the regex
oracles are irrelevant for a `.py` file). -/
def pyExampleOracles : ChunkOracles :=
  { parse := some pyExampleTree, js := [], ts := [], java := [], cpp := [] }

/-- Oracles modelling a file on which `ast.parse` raises `SyntaxError`. -/
def failingParseOracles : ChunkOracles :=
  { parse := none, js := [], ts := [], java := [], cpp := [] }

/-- Retrieval candidate for `main.py` at distance 0.1. -/
def candMain : Candidate :=
  { doc := ("docA").data
    meta := { file_name := ("main.py").data, file_path := ("main.py").data, chunk_id := 0 }
    dist := mkRat 1 10 }

/-- Retrieval candidate for `readme.md` at distance 0.9. -/
def candReadme : Candidate :=
  { doc := ("docB").data
    meta := { file_name := ("readme.md").data, file_path := ("readme.md").data, chunk_id := 0 }
    dist := mkRat 9 10 }

/-- A question that names `readme.md` literally. -/
def boostQuestion : List Char := ("what does readme.md do").data

/-- Eleven lines of which the last is a single space: the second fallback
window strips to the empty string and is skipped. -/
def gapContent : List Char := ("a\na\na\na\na\na\na\na\na\na\n ").data

/-- The line `foo("{") { bar(); }` of the spec's brace-balance example. -/
def braceExampleLine : List Char :=
  ("foo(\"\x7b\") \x7b bar(); \x7d").data

/-- `braceExampleLine` with the quoted brace masked to `x`. -/
def braceExampleMasked : List Char :=
  ("foo(\"x\") \x7b bar(); \x7d").data

/-! ## Helper lemmas -/

theorem ceilDiv_zero (s : Nat) : ceilDiv 0 s = 0 := by
  cases s with
  | zero => rfl
  | succ s =>
    show (0 + (s + 1) - 1) / (s + 1) = 0
    exact Nat.div_eq_of_lt (by omega)

theorem ceilDiv_unfold {n s : Nat} (hn : 0 < n) (hs : 0 < s) :
    ceilDiv n s = ceilDiv (n - s) s + 1 := by
  by_cases h : n ≤ s
  · have h1 : n - s = 0 := by omega
    rw [h1, ceilDiv_zero]
    show (n + s - 1) / s = 0 + 1
    have h4 : (n + s - 1) / s = 1 := Nat.div_eq_of_lt_le (by omega) (by omega)
    omega
  · show (n + s - 1) / s = (n - s + s - 1) / s + 1
    have h2 : n + s - 1 = (n - s + s - 1) + s := by omega
    rw [h2, Nat.add_div_right _ hs]

theorem pyRange0_zero (s : Nat) : pyRange0 0 s = [] := by
  simp [pyRange0, ceilDiv_zero]

theorem pyRange0_unfold {n s : Nat} (hn : 0 < n) (hs : 0 < s) :
    pyRange0 n s = 0 :: (pyRange0 (n - s) s).map (· + s) := by
  unfold pyRange0
  rw [ceilDiv_unfold hn hs, List.range_succ_eq_map]
  simp [List.map_map, Function.comp]
  intro a _
  ring

theorem length_flatMap_le {α β : Type} (l : List α) (f g : α → List β)
    (h : ∀ a ∈ l, (f a).length ≤ (g a).length) :
    (l.flatMap f).length ≤ (l.flatMap g).length := by
  induction l with
  | nil => simp
  | cons a t ih =>
    simp only [List.flatMap_cons, List.length_append]
    have h1 := h a (List.mem_cons_self a t)
    have h2 := ih (fun b hb => h b (List.mem_cons_of_mem a hb))
    omega

theorem flatMap_ext {α β : Type} (l : List α) (f g : α → List β)
    (h : ∀ a ∈ l, f a = g a) : l.flatMap f = l.flatMap g := by
  induction l with
  | nil => rfl
  | cons a t ih =>
    simp only [List.flatMap_cons]
    rw [h a (List.mem_cons_self a t), ih (fun b hb => h b (List.mem_cons_of_mem a hb))]

theorem flatMap_windows {α : Type} (s : Nat) (hs : 0 < s) (l : List α) :
    (pyRange0 l.length s).flatMap (fun i => (l.drop i).take s) = l := by
  by_cases h : l.length = 0
  · rw [h, pyRange0_zero]
    simp [List.length_eq_zero.mp h]
  · rw [pyRange0_unfold (Nat.pos_of_ne_zero h) hs]
    have ih := flatMap_windows s hs (l.drop s)
    simp only [List.flatMap_cons, List.flatMap_map]
    rw [List.length_drop] at ih
    simp only [List.drop_zero]
    calc l.take s ++ (pyRange0 (l.length - s) s).flatMap (fun i => (l.drop (i + s)).take s)
        = l.take s ++ (pyRange0 (l.length - s) s).flatMap (fun i => ((l.drop s).drop i).take s) := by
          congr 1
          apply flatMap_ext
          intro i _
          rw [List.drop_drop, Nat.add_comm s i]
      _ = l.take s ++ l.drop s := by rw [ih]
      _ = l := List.take_append_drop s l
termination_by l.length
decreasing_by
  simp only [List.length_drop]
  omega

theorem dropWhile_append_head (p : Char → Bool) (s : List Char) (d : Char)
    (ts : List Char) (h : p d = false) :
    (s ++ d :: ts).dropWhile p = s.dropWhile p ++ d :: ts := by
  induction s with
  | nil => simp [List.dropWhile, h]
  | cons a t ih =>
    by_cases ha : p a <;> simp [List.dropWhile, ha, ih]

theorem pyStrip_concat (s : List Char) (c : Char) (h : pyIsSpace c = false) :
    pyStrip (s ++ [c]) = s.dropWhile pyIsSpace ++ [c] := by
  unfold pyStrip
  have h1 : (s ++ [c]).dropWhile pyIsSpace = s.dropWhile pyIsSpace ++ [c] := by
    have := dropWhile_append_head pyIsSpace s c [] h
    simpa using this
  rw [h1, List.reverse_append]
  simp [List.dropWhile, h]

/-! ## Claim theorems -/

/-- C2, counterexample: the claim's distance-based confidence rule disagrees
with the code.  With zero retrieved candidates and a 60-character answer the
query path labels the answer `high` (the claim demands `low`); with one
candidate at distance 0.1 and a 2-character answer it labels `low` (the
claim's `mean < 0.25` rule demands `high`). -/
theorem compute_confidence_counterexample :
    (query_response (List.replicate 60 'a') [] "c").confidence = "high" ∧
    confidenceSpec [] 0 = "low" ∧
    (query_response ("ok").data [candMain.meta] "c").confidence = "low" ∧
    confidenceSpec [1/10] 1 = "high" ∧
    ("high" : String) ≠ "low" := by
  refine ⟨?_, by rfl, ?_, ?_, by decide⟩
  · rfl
  · rfl
  · norm_num [confidenceSpec]

/-- C2, amended: `compute_confidence` in `RAGService.query` reads only the
length of the generated answer -- more than 50 characters gives `high`, more
than 30 gives `medium`, otherwise `low` -- and ignores the retrieved distances
and count entirely, so two retrieval sets with the same answer always receive
the same label and the claimed monotonicity holds vacuously. -/
theorem compute_confidence_length_only (answer : List Char)
    (s₁ s₂ : List Meta) :
    compute_confidence answer s₁ = compute_confidence answer s₂ ∧
    (compute_confidence answer s₁ = "high" ↔ 50 < answer.length) ∧
    (compute_confidence answer s₁ = "medium" ↔
      30 < answer.length ∧ answer.length ≤ 50) ∧
    (compute_confidence answer s₁ = "low" ↔ answer.length ≤ 30) := by
  refine ⟨rfl, ?_, ?_, ?_⟩ <;>
    · unfold compute_confidence
      split_ifs with h1 h2 <;> simp_all <;> omega

/-- C6, counterexample: with a single chunk and its only embed/store batch
failing, `create_index` stores nothing yet still returns `1`, not a count
reduced by the failed batch. -/
theorem create_index_count_counterexample :
    (create_index [{ page_content := ("x").data, id := ("i").data }]
        (fun _ => false)).2 = 1 ∧
    ((create_index [{ page_content := ("x").data, id := ("i").data }]
        (fun _ => false)).1).length = 0 ∧
    (1 : Nat) ≠ 0 := by
  decide

/-- C6, amended: a failed embed/store batch is skipped without aborting the
run, but the value returned by `create_index` is always the total number of
extracted chunks -- `len(chunks)` is computed before the batch loop -- so only
the collection contents, never the returned `chunk_count`, reflect batch
failures; when every batch succeeds the collection holds exactly the extracted
chunks. -/
theorem create_index_returns_total_count (chunks : List Doc)
    (batchOk : Nat → Bool) :
    (create_index chunks batchOk).2 = chunks.length ∧
    ((create_index chunks batchOk).1).length ≤ chunks.length ∧
    ((∀ b ∈ pyRange0 chunks.length 512, batchOk b = true) →
      (create_index chunks batchOk).1 = chunks) := by
  refine ⟨rfl, ?_, ?_⟩
  · unfold create_index
    have h := length_flatMap_le (pyRange0 chunks.length 512)
      (fun batch_start => if batchOk batch_start then (chunks.drop batch_start).take 512 else [])
      (fun batch_start => (chunks.drop batch_start).take 512)
      (by intro a _; by_cases hb : batchOk a <;> simp [hb])
    calc ((pyRange0 chunks.length 512).flatMap
            (fun batch_start => if batchOk batch_start then (chunks.drop batch_start).take 512 else [])).length
        ≤ ((pyRange0 chunks.length 512).flatMap
            (fun batch_start => (chunks.drop batch_start).take 512)).length := h
      _ = chunks.length := by rw [flatMap_windows 512 (by omega) chunks]
  · intro hall
    unfold create_index
    have h := flatMap_ext (pyRange0 chunks.length 512)
      (fun batch_start => if batchOk batch_start then (chunks.drop batch_start).take 512 else [])
      (fun batch_start => (chunks.drop batch_start).take 512)
      (by intro a ha; simp [hall a ha])
    rw [h, flatMap_windows 512 (by omega) chunks]

/-- Witness for `create_index_returns_total_count` at a one-chunk, one-batch
input whose batch succeeds. -/
theorem create_index_returns_total_count_witness :
    (create_index [{ page_content := ("x").data, id := ("i").data }]
        (fun _ => true)).1 = [{ page_content := ("x").data, id := ("i").data }] ∧
    (create_index [{ page_content := ("x").data, id := ("i").data }]
        (fun _ => true)).2 = 1 :=
  ⟨(create_index_returns_total_count _ _).2.2 (by decide),
   (create_index_returns_total_count [{ page_content := ("x").data, id := ("i").data }]
      (fun _ => true)).1⟩

/-- C7, counterexample: a query against a session with no collection raises
the untyped base `Exception` with message `Repo not indexed`; no `NotIndexed`
class exists anywhere in the repository's exception taxonomy
(`backend/utils/exceptions.py`), so callers cannot distinguish this failure
from any other exception by type. -/
theorem query_guard_counterexample :
    queryIndexGuard [] "abc" =
      Except.error { cls := "Exception", msg := "Repo not indexed" } ∧
    ("Exception" ∉ gitSleuthExceptionClasses) ∧
    ("NotIndexed" ∉ gitSleuthExceptionClasses) := by
  refine ⟨rfl, by decide, by decide⟩

/-- C7, amended: when no collection named `repo_{session_id}` exists, `query`
fails fast by raising the generic `Exception("Repo not indexed")` -- an
untyped error distinguishable from an upstream generation failure only by its
message string, not by a dedicated `NotIndexed` type; when the collection
exists the guard passes. -/
theorem query_guard_amended (collections : List String) (session_id : String) :
    (("repo_" ++ session_id) ∉ collections →
      queryIndexGuard collections session_id =
        Except.error { cls := "Exception", msg := "Repo not indexed" }) ∧
    (("repo_" ++ session_id) ∈ collections →
      queryIndexGuard collections session_id = Except.ok ()) := by
  constructor <;> intro h <;> simp [queryIndexGuard, h]

/-- Witness for `query_guard_amended` on an empty collection list and on a
list holding the session's collection. -/
theorem query_guard_amended_witness :
    queryIndexGuard [] "abc" =
      Except.error { cls := "Exception", msg := "Repo not indexed" } ∧
    queryIndexGuard ["repo_s"] "s" = Except.ok () :=
  ⟨(query_guard_amended [] "abc").1 (by decide),
   (query_guard_amended ["repo_s"] "s").2 (by decide)⟩

/-- The single message appended by each `addUserMessages` step. -/
def helloUserMessage : ConversationMessage :=
  { role := "user", content := pyStrip ("hello").data, confidence := none }

theorem addUserMessages_messages (b : Nat) (cid sid : String) (n : Nat) :
    (addUserMessages (create_conversation (ConversationManager.empty b) cid sid)
        cid n).conversations =
      [(cid, { session_id := sid, messages := List.replicate n helloUserMessage })] := by
  induction n with
  | zero =>
    simp [addUserMessages, create_conversation, ConversationManager.empty,
      pydanticListField]
  | succ n ih =>
    simp only [addUserMessages, add_message, ih]
    simp [List.lookup, helloUserMessage, List.replicate_succ']

/-- C8: the conversation bound is never enforced.  `create_conversation` does
build `deque(maxlen=max_messages)`, but pydantic validation of the
`messages: List[ConversationMessage]` field coerces that deque to a plain
Python list, discarding `maxlen`; `add_message` then appends without bound.
After `max_messages + 1` appends the conversation holds `max_messages + 1`
messages -- the oldest is never evicted and the configured bound is
exceeded. -/
theorem conversation_bound_exceeded :
    ∃ conv,
      ((addUserMessages
          (create_conversation (ConversationManager.empty defaultMaxMessages) "c1" "s1")
          "c1" (defaultMaxMessages + 1)).conversations).lookup "c1" = some conv ∧
      conv.messages.length = defaultMaxMessages + 1 ∧
      defaultMaxMessages < conv.messages.length := by
  refine ⟨{ session_id := "s1",
            messages := List.replicate (defaultMaxMessages + 1) helloUserMessage }, ?_, ?_, ?_⟩
  · rw [addUserMessages_messages defaultMaxMessages "c1" "s1" (defaultMaxMessages + 1)]
    rfl
  · exact List.length_replicate _ _
  · simp only [List.length_replicate]
    omega

set_option maxRecDepth 8000 in
/-- C10: the answer returned by `query` is the stripped LLM output followed by
`\n\n[CONFIDENCE: c]` where `c` is exactly the response's `confidence` field;
the stripped copy stored as the assistant message by `add_message` ends with
the same tag; and the system prompt explicitly instructs the model not to
produce confidence ratings itself. -/
theorem query_answer_ends_with_confidence_tag (raw : List Char)
    (sources : List Meta) (cid : String) :
    (∃ p, (query_response raw sources cid).answer =
        p ++ confidenceTag (query_response raw sources cid).confidence) ∧
    (∃ q, pyStrip (query_response raw sources cid).answer =
        q ++ confidenceTag (query_response raw sources cid).confidence) ∧
    hasSub ("Do not include confidence ratings").data system_prompt.data = true := by
  refine ⟨⟨pyStrip raw ++ [nlChar, nlChar], rfl⟩, ?_, by decide⟩
  have hc : (query_response raw sources cid).confidence =
      compute_confidence (pyStrip raw) sources := rfl
  have htag : ∀ c : String, confidenceTag c =
      '[' :: (("CONFIDENCE: ").data ++ c.data ++ [']']) := fun _ => rfl
  have hanswer : (query_response raw sources cid).answer =
      (pyStrip raw ++ [nlChar, nlChar]) ++
        confidenceTag (compute_confidence (pyStrip raw) sources) := rfl
  refine ⟨(pyStrip raw ++ [nlChar, nlChar]).dropWhile pyIsSpace, ?_⟩
  rw [hc, hanswer, htag]
  have hr : (pyStrip raw ++ [nlChar, nlChar]) ++
      ('[' :: (("CONFIDENCE: ").data ++
        (compute_confidence (pyStrip raw) sources).data ++ [']'])) =
      ((pyStrip raw ++ [nlChar, nlChar]) ++
        ('[' :: (("CONFIDENCE: ").data ++
          (compute_confidence (pyStrip raw) sources).data))) ++ [']'] := by
    simp [List.append_assoc]
  rw [hr, pyStrip_concat _ _ (by decide),
      dropWhile_append_head pyIsSpace _ '[' _ (by decide)]
  simp [List.append_assoc]

/-! ## C1: boosting and re-ranking -/

instance : IsTotal Candidate (fun a b => a.dist ≤ b.dist) :=
  ⟨fun a b => le_total a.dist b.dist⟩

instance : IsTrans Candidate (fun a b => a.dist ≤ b.dist) :=
  ⟨fun _ _ _ h₁ h₂ => le_trans h₁ h₂⟩

theorem promoteAt_perm (l : List Candidate) (idx : Nat) :
    (promoteAt l idx).Perm l := by
  unfold promoteAt
  cases h : l.get? idx with
  | none => exact List.Perm.refl l
  | some x =>
    have hlt : idx < l.length := List.get?_eq_some.mp h |>.1
    have hx : l[idx] = x := by
      have := List.get?_eq_some.mp h
      obtain ⟨h1, h2⟩ := this
      simpa using h2
    have hdecomp : l.take idx ++ x :: l.drop (idx + 1) = l := by
      conv_rhs => rw [← List.take_append_drop idx l]
      rw [List.drop_eq_getElem_cons hlt, hx]
    have hperm : (x :: (l.take idx ++ l.drop (idx + 1))).Perm
        (l.take idx ++ x :: l.drop (idx + 1)) := List.perm_middle.symm
    have h2 : (l.take idx ++ x :: l.drop (idx + 1)).Perm l := by
      rw [hdecomp]
    exact hperm.trans h2

theorem boostPass_eq (question : List Char) (cands : List Candidate) :
    boostPass question cands =
      match cands.find? (fun c => qualifies (pyLower question) c.meta) with
      | none => cands
      | some c => promoteAt cands (cands.findIdx (fun d => d.meta == c.meta)) := rfl

theorem boostPass_perm (question : List Char) (cands : List Candidate) :
    (boostPass question cands).Perm cands := by
  rw [boostPass_eq]
  cases h : cands.find? (fun c => qualifies (pyLower question) c.meta) with
  | none => exact List.Perm.refl cands
  | some c => exact promoteAt_perm cands _

theorem takeWhile_eq_filter_of_sorted (p : Candidate → Bool)
    (hp : ∀ a b : Candidate, a.dist ≤ b.dist → p b = true → p a = true) :
    ∀ s : List Candidate, s.Sorted (fun a b => a.dist ≤ b.dist) →
      s.takeWhile p = s.filter p := by
  intro s hs
  induction s with
  | nil => rfl
  | cons a t ih =>
    rw [List.sorted_cons] at hs
    by_cases hpa : p a = true
    · rw [List.takeWhile_cons_of_pos hpa, List.filter_cons_of_pos hpa, ih hs.2]
    · rw [List.takeWhile_cons_of_neg (by simpa using hpa),
          List.filter_cons_of_neg (by simpa using hpa)]
      symm
      rw [List.filter_eq_nil_iff]
      intro b hb hpb
      exact hpa (hp a b (hs.1 b hb) (by simpa using hpb))

/-- C1, counterexample: the question names `readme.md`, whose candidate sits
at retrieval rank 1 with distance 0.9 behind `main.py` at distance 0.1.  The
boosting pass does move `readme.md` to position 0, but the subsequent re-rank
sorts the whole list by distance again, so the final ranked list starts with
`main.py`, not the boosted candidate. -/
theorem finalRanking_boost_not_front :
    qualifies (pyLower boostQuestion) candReadme.meta = true ∧
    qualifies (pyLower boostQuestion) candMain.meta = false ∧
    boostPass boostQuestion [candMain, candReadme] = [candReadme, candMain] ∧
    finalRanking boostQuestion [candMain, candReadme] = [candMain, candReadme] ∧
    candMain ≠ candReadme := by
  decide

/-- C1, amended: after the boosting pass moves the first qualifying candidate
to position 0, the re-rank stable-sorts the entire list -- the boosted entry
included -- by ascending distance.  The final list is therefore a permutation
of the retrieved candidates in ascending distance order, and the boosted
candidate ends up at the index equal to the number of other candidates with
strictly smaller distance (index 0 only when it already has minimal
distance); stability only places it before equal-distance peers. -/
theorem final_ranking_characterisation (question : List Char)
    (cands : List Candidate) :
    (finalRanking question cands).Perm cands ∧
    (finalRanking question cands).Sorted (fun a b => a.dist ≤ b.dist) ∧
    (∀ x rest, boostPass question cands = x :: rest →
      ∃ pre post, finalRanking question cands = pre ++ x :: post ∧
        pre.length = rest.countP (fun b => decide (b.dist < x.dist))) := by
  refine ⟨?_, ?_, ?_⟩
  · exact (List.perm_insertionSort _ _).trans (boostPass_perm question cands)
  · exact List.sorted_insertionSort _ _
  · intro x rest h
    unfold finalRanking rerank
    rw [h]
    have hunfold : (x :: rest).insertionSort (fun a b => a.dist ≤ b.dist) =
        (rest.insertionSort (fun a b => a.dist ≤ b.dist)).orderedInsert
          (fun a b => a.dist ≤ b.dist) x := rfl
    rw [hunfold, List.orderedInsert_eq_take_drop]
    refine ⟨_, _, rfl, ?_⟩
    have hpred : (fun b : Candidate => decide ¬(x.dist ≤ b.dist)) =
        (fun b : Candidate => decide (b.dist < x.dist)) := by
      funext b
      exact decide_eq_decide.mpr not_le
    have hclosed : ∀ a b : Candidate, a.dist ≤ b.dist →
        decide (b.dist < x.dist) = true → decide (a.dist < x.dist) = true := by
      intro a b hab hb
      simp only [decide_eq_true_eq] at hb ⊢
      exact lt_of_le_of_lt hab hb
    calc ((rest.insertionSort (fun a b => a.dist ≤ b.dist)).takeWhile
            (fun b => decide ¬(x.dist ≤ b.dist))).length
        = ((rest.insertionSort (fun a b => a.dist ≤ b.dist)).takeWhile
            (fun b => decide (b.dist < x.dist))).length := by rw [hpred]
      _ = ((rest.insertionSort (fun a b => a.dist ≤ b.dist)).filter
            (fun b => decide (b.dist < x.dist))).length := by
          rw [takeWhile_eq_filter_of_sorted _ hclosed _
            (List.sorted_insertionSort _ _)]
      _ = (rest.insertionSort (fun a b => a.dist ≤ b.dist)).countP
            (fun b => decide (b.dist < x.dist)) :=
          (List.countP_eq_length_filter _ _).symm
      _ = rest.countP (fun b => decide (b.dist < x.dist)) :=
          (List.perm_insertionSort _ rest).countP_eq _

/-- Witness for `final_ranking_characterisation`: on the `readme.md` example
the boosted candidate's final index equals the count of strictly closer
candidates. -/
theorem final_ranking_characterisation_witness :
    ∃ pre post,
      finalRanking boostQuestion [candMain, candReadme] =
        pre ++ candReadme :: post ∧
      pre.length = [candMain].countP (fun b => decide (b.dist < candReadme.dist)) :=
  (final_ranking_characterisation boostQuestion [candMain, candReadme]).2.2
    candReadme [candMain] (by decide)

/-! ## Helper lemmas for fallback chunking (C3, C5) -/

theorem pyStrip_eq_nil_iff {s : List Char} :
    pyStrip s = [] ↔ ∀ c ∈ s, pyIsSpace c = true := by
  unfold pyStrip
  rw [List.reverse_eq_nil_iff, List.dropWhile_eq_nil_iff]
  constructor
  · intro h c hc
    by_cases hdrop : c ∈ s.dropWhile pyIsSpace
    · exact h c (by simpa using hdrop)
    · have hsplit := List.takeWhile_append_dropWhile (p := pyIsSpace) (l := s)
      rw [← hsplit] at hc
      rcases List.mem_append.mp hc with h1 | h1
      · exact List.mem_takeWhile_imp h1
      · exact absurd h1 hdrop
  · intro h c hc
    have : c ∈ s.dropWhile pyIsSpace := by simpa using hc
    exact h c (List.dropWhile_sublist pyIsSpace |>.mem this)

theorem pyStrip_ne_nil {s : List Char} (h : ∃ c ∈ s, pyIsSpace c = false) :
    pyStrip s ≠ [] := by
  intro hnil
  obtain ⟨c, hc, hcws⟩ := h
  have := pyStrip_eq_nil_iff.mp hnil c hc
  simp [this] at hcws

theorem mem_joinNL {c : Char} {l : List Char} {ls : List (List Char)}
    (hc : c ∈ l) (hl : l ∈ ls) : c ∈ joinNL ls := by
  induction ls with
  | nil => exact absurd hl (List.not_mem_nil l)
  | cons a rest ih =>
    cases rest with
    | nil =>
      have : l = a := by simpa using hl
      subst this
      simpa [joinNL] using hc
    | cons b t =>
      show c ∈ a ++ nlChar :: joinNL (b :: t)
      rcases List.mem_cons.mp hl with h1 | h1
      · subst h1
        exact List.mem_append_left _ hc
      · exact List.mem_append_right _ (List.mem_cons_of_mem _ (ih h1))

theorem normNewlines_exists_nonws (s : List Char)
    (h : ∃ c ∈ s, pyIsSpace c = false) :
    ∃ c ∈ normNewlines s, pyIsSpace c = false := by
  match s with
  | [] =>
    obtain ⟨c, hc, _⟩ := h
    exact absurd hc (List.not_mem_nil c)
  | [c] =>
    obtain ⟨x, hx, hxw⟩ := h
    have hxc : x = c := by simpa using hx
    subst hxc
    have hcond : ¬((x == crChar || x == nlChar) = true) := by
      intro hb
      rcases Bool.or_eq_true_iff.mp hb with h1 | h1
      · have : x = crChar := by simpa using h1
        subst this
        simp [show pyIsSpace crChar = true from by decide] at hxw
      · have : x = nlChar := by simpa using h1
        subst this
        simp [show pyIsSpace nlChar = true from by decide] at hxw
    rw [normNewlines, if_neg hcond]
    exact ⟨x, List.mem_singleton.mpr rfl, hxw⟩
  | c :: d :: rest =>
    rw [normNewlines]
    by_cases hcr : c == crChar
    · rw [if_pos hcr]
      have hcw : pyIsSpace c = true := by
        have : c = crChar := by simpa using hcr
        subst this
        decide
      have h' : ∃ x ∈ d :: rest, pyIsSpace x = false := by
        obtain ⟨x, hx, hxw⟩ := h
        rcases List.mem_cons.mp hx with h1 | h1
        · subst h1; simp [hcw] at hxw
        · exact ⟨x, h1, hxw⟩
      by_cases hd : d == nlChar
      · rw [if_pos hd]
        have hdw : pyIsSpace d = true := by
          have : d = nlChar := by simpa using hd
          subst this
          decide
        have h'' : ∃ x ∈ rest, pyIsSpace x = false := by
          obtain ⟨x, hx, hxw⟩ := h'
          rcases List.mem_cons.mp hx with h1 | h1
          · subst h1; simp [hdw] at hxw
          · exact ⟨x, h1, hxw⟩
        obtain ⟨y, hy, hyw⟩ := normNewlines_exists_nonws rest h''
        exact ⟨y, List.mem_cons_of_mem _ hy, hyw⟩
      · rw [if_neg hd]
        obtain ⟨y, hy, hyw⟩ := normNewlines_exists_nonws (d :: rest) h'
        exact ⟨y, List.mem_cons_of_mem _ hy, hyw⟩
    · rw [if_neg hcr]
      by_cases hnl : c == nlChar
      · rw [if_pos hnl]
        have hcw : pyIsSpace c = true := by
          have : c = nlChar := by simpa using hnl
          subst this
          decide
        have h' : ∃ x ∈ d :: rest, pyIsSpace x = false := by
          obtain ⟨x, hx, hxw⟩ := h
          rcases List.mem_cons.mp hx with h1 | h1
          · subst h1; simp [hcw] at hxw
          · exact ⟨x, h1, hxw⟩
        obtain ⟨y, hy, hyw⟩ := normNewlines_exists_nonws (d :: rest) h'
        exact ⟨y, List.mem_cons_of_mem _ hy, hyw⟩
      · rw [if_neg hnl]
        obtain ⟨x, hx, hxw⟩ := h
        rcases List.mem_cons.mp hx with h1 | h1
        · subst h1
          exact ⟨x, List.mem_cons_self _ _, hxw⟩
        · obtain ⟨y, hy, hyw⟩ := normNewlines_exists_nonws (d :: rest) ⟨x, h1, hxw⟩
          exact ⟨y, List.mem_cons_of_mem _ hy, hyw⟩

theorem splitOnNl_exists_nonws (s : List Char) :
    ∀ acc : List Char,
    ((∃ c ∈ s, pyIsSpace c = false) ∨ (∃ c ∈ acc, pyIsSpace c = false)) →
    ∃ l ∈ splitOnNl s acc, ∃ c ∈ l, pyIsSpace c = false := by
  induction s with
  | nil =>
    intro acc h
    rw [splitOnNl]
    refine ⟨acc.reverse, List.mem_singleton.mpr rfl, ?_⟩
    rcases h with ⟨c, hc, _⟩ | ⟨c, hc, hws⟩
    · exact absurd hc (List.not_mem_nil c)
    · exact ⟨c, List.mem_reverse.mpr hc, hws⟩
  | cons c rest ih =>
    intro acc h
    rw [splitOnNl]
    by_cases hnl : c == nlChar
    · rw [if_pos hnl]
      have hcw : pyIsSpace c = true := by
        have : c = nlChar := by simpa using hnl
        subst this
        decide
      have h' : (∃ x ∈ rest, pyIsSpace x = false) ∨ (∃ x ∈ acc, pyIsSpace x = false) := by
        rcases h with ⟨x, hx, hxw⟩ | hr
        · rcases List.mem_cons.mp hx with h1 | h1
          · subst h1; simp [hcw] at hxw
          · exact Or.inl ⟨x, h1, hxw⟩
        · exact Or.inr hr
      rcases h' with ⟨x, hx, hxw⟩ | ⟨x, hx, hws⟩
      · have hne : rest ≠ [] := fun hnil => by
          rw [hnil] at hx
          exact absurd hx (List.not_mem_nil x)
        rw [if_neg (by simpa using hne)]
        obtain ⟨l, hl, hlc⟩ := ih [] (Or.inl ⟨x, hx, hxw⟩)
        exact ⟨l, List.mem_cons_of_mem _ hl, hlc⟩
      · exact ⟨acc.reverse, List.mem_cons_self _ _, x, List.mem_reverse.mpr hx, hws⟩
    · rw [if_neg hnl]
      apply ih (c :: acc)
      rcases h with ⟨x, hx, hxw⟩ | ⟨x, hx, hws⟩
      · rcases List.mem_cons.mp hx with h1 | h1
        · subst h1
          exact Or.inr ⟨x, List.mem_cons_self x acc, hxw⟩
        · exact Or.inl ⟨x, h1, hxw⟩
      · exact Or.inr ⟨x, List.mem_cons_of_mem _ hx, hws⟩

theorem splitlines_exists_nonws {s : List Char}
    (h : ∃ c ∈ s, pyIsSpace c = false) :
    ∃ l ∈ pySplitlines s, ∃ c ∈ l, pyIsSpace c = false := by
  rcases h with ⟨c, hc, hws⟩
  have hne : s ≠ [] := by
    intro hs
    rw [hs] at hc
    exact absurd hc (List.not_mem_nil c)
  unfold pySplitlines
  rw [if_neg (by simpa using hne)]
  exact splitOnNl_exists_nonws (normNewlines s) []
    (Or.inl (normNewlines_exists_nonws s ⟨c, hc, hws⟩))

theorem lt_ceilDiv_iff {s : Nat} (hs : 0 < s) (k n : Nat) :
    k < ceilDiv n s ↔ k * s < n := by
  unfold ceilDiv
  rw [Nat.lt_iff_add_one_le, Nat.le_div_iff_mul_le hs, Nat.add_mul, one_mul]
  omega

theorem mem_pyRange0 {i n s : Nat} :
    i ∈ pyRange0 n s ↔ ∃ k, k < ceilDiv n s ∧ i = k * s := by
  simp [pyRange0, List.mem_map, List.mem_range, eq_comm]

theorem pairwise_filterMap_of {α β : Type} {R : α → α → Prop} {S : β → β → Prop}
    (f : α → Option β) {l : List α} (hl : List.Pairwise R l)
    (h : ∀ a b x y, R a b → f a = some x → f b = some y → S x y) :
    List.Pairwise S (l.filterMap f) := by
  induction l with
  | nil => simp
  | cons a t ih =>
    rcases List.pairwise_cons.mp hl with ⟨hR, ht⟩
    cases hfa : f a with
    | none =>
      rw [List.filterMap_cons_none hfa]
      exact ih ht
    | some x =>
      rw [List.filterMap_cons_some hfa]
      refine List.pairwise_cons.mpr ⟨?_, ih ht⟩
      intro y hy
      obtain ⟨b, hb, hfb⟩ := List.mem_filterMap.mp hy
      exact h a b x y (hR b hb) hfa hfb

theorem fallback_chunking_eq (content file_path : List Char) :
    fallback_chunking content file_path =
      (pyRange0 (pySplitlines content).length
          (max 10 ((pySplitlines content).length / 2))).filterMap
        (fbChunk (pySplitlines content)
          (max 10 ((pySplitlines content).length / 2)) file_path) := rfl

theorem mem_fallback_iff {ch : Chunk} {content file_path : List Char} :
    ch ∈ fallback_chunking content file_path ↔
      ∃ i ∈ pyRange0 (pySplitlines content).length
          (max 10 ((pySplitlines content).length / 2)),
        fbChunk (pySplitlines content)
          (max 10 ((pySplitlines content).length / 2)) file_path i = some ch := by
  rw [fallback_chunking_eq, List.mem_filterMap]

theorem fallback_nonempty {content file_path : List Char}
    (h : ∃ c ∈ content, pyIsSpace c = false) :
    fallback_chunking content file_path ≠ [] := by
  obtain ⟨l, hl, c, hcl, hcw⟩ := splitlines_exists_nonws h
  set lines := pySplitlines content with hlines
  set step := max 10 (lines.length / 2) with hstep
  have hstep_pos : 0 < step := by
    rw [hstep]
    omega
  obtain ⟨j, hj, hgetj⟩ := List.getElem_of_mem hl
  set k := j / step with hk
  set i := k * step with hi
  have hij : i ≤ j := Nat.div_mul_le_self j step
  have hjlt : j < i + step := by
    have hmod : step * (j / step) + j % step = j := Nat.div_add_mod j step
    have hmlt : j % step < step := Nat.mod_lt _ hstep_pos
    have hcomm : step * (j / step) = k * step := by
      rw [hk, Nat.mul_comm]
    omega
  have hmem : i ∈ pyRange0 lines.length step := by
    rw [mem_pyRange0]
    exact ⟨k, (lt_ceilDiv_iff hstep_pos _ _).mpr (Nat.lt_of_le_of_lt hij hj), rfl⟩
  have hwin : l ∈ (lines.drop i).take step := by
    have hjd : j - i < (lines.drop i).length := by
      rw [List.length_drop]
      omega
    have hget : (lines.drop i)[j - i] = l := by
      rw [List.getElem_drop]
      have : i + (j - i) = j := by omega
      simp only [this]
      exact hgetj
    have hjt : j - i < step := by omega
    have hlen2 : j - i < ((lines.drop i).take step).length := by
      rw [List.length_take]
      exact lt_min hjt hjd
    have hgot : ((lines.drop i).take step).get ⟨j - i, hlen2⟩ = l := by
      rw [List.get_eq_getElem, List.getElem_take]
      exact hget
    rw [← hgot]
    exact List.get_mem _ _ _
  have hsec : (fbSection lines step i).length > 0 := by
    have hcjoin : c ∈ joinNL ((lines.drop i).take step) := mem_joinNL hcl hwin
    have : pyStrip (joinNL ((lines.drop i).take step)) ≠ [] :=
      pyStrip_ne_nil ⟨c, hcjoin, hcw⟩
    unfold fbSection
    exact List.length_pos.mpr this
  intro hnil
  have hsome : fbChunk lines step file_path i = some
      { content := fbSection lines step i
        file_path := file_path
        start_line := i + 1
        end_line := min (i + step) lines.length
        type := "text_section"
        language := "text"
        is_semantic := false
        chunk_id := 0
        chunk_size := 0 } := by
    unfold fbChunk
    rw [if_pos hsec]
  have hmem2 := mem_fallback_iff.mpr ⟨i, hmem, hsome⟩
  rw [hnil] at hmem2
  exact absurd hmem2 (List.not_mem_nil _)

/-- C3, counterexample: eleven lines whose last line is a single space.  The
two fallback windows are lines 1-10 and line 11, but the second window strips
to the empty string and is skipped, so the emitted chunks cover only `[1, 10]`
-- the ranges do not partition `[1, 11]`. -/
theorem fallback_gap_counterexample :
    (fallback_chunking gapContent ("f").data).map
      (fun ch => (ch.start_line, ch.end_line)) = [(1, 10)] ∧
    (pySplitlines gapContent).length = 11 ∧
    ¬ ∃ ch ∈ fallback_chunking gapContent ("f").data,
        ch.start_line ≤ 11 ∧ 11 ≤ ch.end_line := by
  refine ⟨by decide, by decide, by decide⟩

/-- C3, amended: fallback chunking cuts the `N` lines into windows of
`W = max(10, N // 2)` lines.  Every emitted chunk lies inside `[1, N]`, spans
at most `W` lines, and the chunks are strictly ordered with disjoint ranges;
a window whose joined text strips to the empty string is skipped, so a line is
covered by some chunk unless its window is all whitespace -- the claimed exact
partition of `[1, N]` holds only when no window is entirely whitespace.  At
least one chunk is produced whenever the content has any non-whitespace
character. -/
theorem fallback_chunking_window_structure (content file_path : List Char) :
    (∀ ch ∈ fallback_chunking content file_path,
        1 ≤ ch.start_line ∧ ch.start_line ≤ ch.end_line ∧
        ch.end_line ≤ (pySplitlines content).length ∧
        ch.end_line + 1 ≤ ch.start_line + max 10 ((pySplitlines content).length / 2)) ∧
    List.Pairwise (fun a b => a.end_line < b.start_line)
      (fallback_chunking content file_path) ∧
    ((∃ c ∈ content, pyIsSpace c = false) →
      fallback_chunking content file_path ≠ []) ∧
    (∀ m, 1 ≤ m → m ≤ (pySplitlines content).length →
      (∃ ch ∈ fallback_chunking content file_path,
          ch.start_line ≤ m ∧ m ≤ ch.end_line) ∨
      fbSection (pySplitlines content) (max 10 ((pySplitlines content).length / 2))
        (((m - 1) / max 10 ((pySplitlines content).length / 2)) *
          max 10 ((pySplitlines content).length / 2)) = []) := by
  set lines := pySplitlines content with hlines
  set step := max 10 (lines.length / 2) with hstep
  have hstep_pos : 0 < step := by
    rw [hstep]
    omega
  have hchunk_shape : ∀ i ch, fbChunk lines step file_path i = some ch →
      ch.start_line = i + 1 ∧ ch.end_line = min (i + step) lines.length := by
    intro i ch h
    unfold fbChunk at h
    split_ifs at h
    · cases h
      exact ⟨rfl, rfl⟩
  refine ⟨?_, ?_, fallback_nonempty, ?_⟩
  · intro ch hch
    obtain ⟨i, hi, hsome⟩ := mem_fallback_iff.mp hch
    obtain ⟨k, hk, hik⟩ := mem_pyRange0.mp hi
    have hiN : i < lines.length := by
      rw [hik]
      exact (lt_ceilDiv_iff hstep_pos _ _).mp hk
    obtain ⟨hstart, hend⟩ := hchunk_shape i ch hsome
    rw [hstart, hend]
    refine ⟨by omega, ?_, ?_, ?_⟩
    · exact le_min (by omega) (by omega)
    · exact min_le_right _ _
    · have := min_le_left (i + step) lines.length
      omega
  · rw [fallback_chunking_eq]
    have hpw : List.Pairwise (fun i j => i + step ≤ j)
        (pyRange0 lines.length step) := by
      unfold pyRange0
      refine List.Pairwise.map _ ?_ (List.pairwise_lt_range _)
      intro a b hab
      have : (a + 1) * step ≤ b * step :=
        Nat.mul_le_mul_right _ (by omega)
      calc a * step + step = (a + 1) * step := by ring
        _ ≤ b * step := this
    refine pairwise_filterMap_of _ hpw ?_
    intro a b x y hab hfa hfb
    obtain ⟨hxs, hxe⟩ := hchunk_shape a x hfa
    obtain ⟨hys, _⟩ := hchunk_shape b y hfb
    rw [hxe, hys]
    have := min_le_left (a + step) lines.length
    omega
  · intro m hm1 hmN
    set k := (m - 1) / step with hk
    set i := k * step with hi
    have hile : i ≤ m - 1 := Nat.div_mul_le_self (m - 1) step
    have hmlt : m - 1 < i + step := by
      have hmod : step * ((m - 1) / step) + (m - 1) % step = m - 1 :=
        Nat.div_add_mod (m - 1) step
      have hmodlt : (m - 1) % step < step := Nat.mod_lt _ hstep_pos
      have hcomm : step * ((m - 1) / step) = k * step := by
        rw [hk, Nat.mul_comm]
      omega
    cases hsec : (fbSection lines step i).length with
    | zero =>
      right
      exact List.length_eq_zero.mp hsec
    | succ p =>
      left
      have hsome : fbChunk lines step file_path i = some
          { content := fbSection lines step i
            file_path := file_path
            start_line := i + 1
            end_line := min (i + step) lines.length
            type := "text_section"
            language := "text"
            is_semantic := false
            chunk_id := 0
            chunk_size := 0 } := by
        unfold fbChunk
        rw [if_pos (by omega)]
      have hmem : i ∈ pyRange0 lines.length step := by
        rw [mem_pyRange0]
        refine ⟨k, (lt_ceilDiv_iff hstep_pos _ _).mpr ?_, rfl⟩
        omega
      refine ⟨_, mem_fallback_iff.mpr ⟨i, hmem, hsome⟩, ?_, ?_⟩
      · show i + 1 ≤ m
        omega
      · show m ≤ min (i + step) lines.length
        exact le_min (by omega) hmN

/-- Witness for `fallback_chunking_window_structure` on a two-line file:
a chunk is produced and line 1 is covered. -/
theorem fallback_chunking_window_structure_witness :
    fallback_chunking ("abcdefghij\nxyz").data ("f").data ≠ [] ∧
    ((∃ ch ∈ fallback_chunking ("abcdefghij\nxyz").data ("f").data,
        ch.start_line ≤ 1 ∧ 1 ≤ ch.end_line) ∨
      fbSection (pySplitlines ("abcdefghij\nxyz").data)
        (max 10 ((pySplitlines ("abcdefghij\nxyz").data).length / 2))
        (((1 - 1) / max 10 ((pySplitlines ("abcdefghij\nxyz").data).length / 2)) *
          max 10 ((pySplitlines ("abcdefghij\nxyz").data).length / 2)) = []) :=
  ⟨(fallback_chunking_window_structure ("abcdefghij\nxyz").data ("f").data).2.2.1
      ⟨'a', by decide, by decide⟩,
   (fallback_chunking_window_structure ("abcdefghij\nxyz").data ("f").data).2.2.2
      1 (by decide) (by decide)⟩

/-! ## C9: brace balance and quoted strings -/

theorem processLine_cons (st : BState) (c : Char) (cs : List Char) :
    processLine st (c :: cs) =
      match stepChar st c with
      | .stop => none
      | .cont st' => processLine st' cs := rfl

theorem maskLine_cons (st : BState) (c : Char) (cs : List Char) :
    maskLine st (c :: cs) =
      ((maskLine (maskStep st c).1 cs).1,
        (maskStep st c).2 :: (maskLine (maskStep st c).1 cs).2) := rfl

theorem maskLines_cons (st : BState) (l : List Char) (rest : List (List Char)) :
    maskLines st (l :: rest) =
      (maskLine st l).2 :: maskLines (maskLine st l).1 rest := rfl

theorem findBlockEndAux_cons (st : BState) (l : List Char)
    (rest : List (List Char)) (i total : Nat) :
    findBlockEndAux st (l :: rest) i total =
      match processLine st l with
      | none => i + 1
      | some st' => findBlockEndAux st' rest (i + 1) total := rfl

theorem maskStep_step (st : BState) (c : Char) :
    stepChar st (maskStep st c).2 = stepChar st c ∧
    (∀ st', stepChar st c = .cont st' → (maskStep st c).1 = st') := by
  unfold maskStep
  by_cases hmask : (!st.escape_next && !(c == bslash) && !(c == quoteD) &&
      !(c == quoteS) && st.in_string &&
      (c == obrace || c == oparen || c == cbrace || c == cparen)) = true
  · rw [if_pos hmask]
    simp only [Bool.and_eq_true, Bool.not_eq_true'] at hmask
    obtain ⟨⟨⟨⟨⟨hesc, hbs⟩, hqd⟩, hqs⟩, hin⟩, _⟩ := hmask
    have hstep_c : stepChar st c = .cont st := by
      unfold stepChar
      rw [if_neg (by simp [hesc]), if_neg (by simp [hbs]),
          if_neg (by simp [hqd, hqs]), if_neg (by simp [hqd, hqs]),
          if_neg (by simp [hin])]
    have hxq1 : ('x' == quoteD) = false := by decide
    have hxq2 : ('x' == quoteS) = false := by decide
    have hstep_x : stepChar st 'x' = .cont st := by
      unfold stepChar
      rw [if_neg (by simp [hesc]), if_neg (by decide),
          if_neg (by simp [hxq1, hxq2]), if_neg (by simp [hxq1, hxq2]),
          if_neg (by simp [hin])]
    refine ⟨?_, ?_⟩
    · show stepChar st 'x' = stepChar st c
      rw [hstep_c, hstep_x]
    · intro st' h
      rw [hstep_c] at h
      cases h
      rfl
  · rw [if_neg hmask]
    refine ⟨?_, ?_⟩
    · cases hst : stepChar st c <;> rw [hst]
    · intro st' h
      rw [h]

theorem processLine_mask (l : List Char) : ∀ st : BState,
    processLine st (maskLine st l).2 = processLine st l ∧
    (∀ st', processLine st l = some st' → (maskLine st l).1 = st') := by
  induction l with
  | nil =>
    intro st
    exact ⟨rfl, fun st' h => by cases h; rfl⟩
  | cons c cs ih =>
    intro st
    obtain ⟨hstep, hstate⟩ := maskStep_step st c
    rw [maskLine_cons]
    constructor
    · show processLine st ((maskStep st c).2 :: (maskLine (maskStep st c).1 cs).2) =
        processLine st (c :: cs)
      rw [processLine_cons, processLine_cons, hstep]
      cases hsc : stepChar st c with
      | stop => rfl
      | cont stm =>
        have hp1 : (maskStep st c).1 = stm := hstate stm hsc
        rw [hp1]
        exact (ih stm).1
    · intro st' h
      rw [processLine_cons] at h
      cases hsc : stepChar st c with
      | stop =>
        rw [hsc] at h
        exact absurd h (by simp)
      | cont stm =>
        rw [hsc] at h
        have hp1 : (maskStep st c).1 = stm := hstate stm hsc
        show (maskLine (maskStep st c).1 cs).1 = st'
        rw [hp1]
        exact (ih stm).2 st' h

theorem findBlockEndAux_mask (ls : List (List Char)) :
    ∀ (st : BState) (i total : Nat),
    findBlockEndAux st (maskLines st ls) i total = findBlockEndAux st ls i total := by
  induction ls with
  | nil => intro st i total; rfl
  | cons l rest ih =>
    intro st i total
    rw [maskLines_cons, findBlockEndAux_cons, findBlockEndAux_cons]
    obtain ⟨hpl, hst⟩ := processLine_mask l st
    rw [hpl]
    cases hres : processLine st l with
    | none => rfl
    | some st' =>
      have hmm : (maskLine st l).1 = st' := hst st' hres
      rw [hmm]
      exact ih st' (i + 1) total

/-- C9: `_find_block_end` counts bracket pairs with an in-string flag that
toggles on unescaped quotes and makes bracket characters inert while set.
The general statement: replacing every in-string unescaped bracket character
by the letter `x` (the `maskLines` transform, threading the same scanner
state) never changes the detected block end -- the result is determined by
the unquoted brackets alone.  On the spec's example `foo("{") { bar(); }` the
block end is line 1 (the running count returns to zero at the `)` closing
`foo`), identical on the masked line, and an unbalanced input returns
`len(lines)`. -/
theorem find_block_end_ignores_quoted_brackets :
    (∀ (lines : List (List Char)) (start_line : Nat),
      findBlockEndAux bInit (maskLines bInit (lines.drop start_line)) start_line
        lines.length = find_block_end lines start_line) ∧
    find_block_end [braceExampleLine, [cbrace]] 0 = 1 ∧
    maskLines bInit [braceExampleLine, [cbrace]] = [braceExampleMasked, [cbrace]] ∧
    find_block_end [braceExampleMasked, [cbrace]] 0 = 1 ∧
    find_block_end [[oparen], ['x']] 0 = 2 := by
  refine ⟨?_, by decide, by decide, by decide, by decide⟩
  intro lines start_line
  unfold find_block_end
  exact findBlockEndAux_mask (lines.drop start_line) bInit start_line lines.length

/-! ## Helper lemmas for chunk_document (C4, C5) -/

theorem fbChunk_shape {lines : List (List Char)} {step : Nat} {fp : List Char}
    {i : Nat} {ch : Chunk} (h : fbChunk lines step fp i = some ch) :
    ch.start_line = i + 1 ∧ ch.end_line = min (i + step) lines.length := by
  unfold fbChunk at h
  split_ifs at h
  cases h
  exact ⟨rfl, rfl⟩

theorem fallback_start_le_end (content fp : List Char) :
    ∀ ch ∈ fallback_chunking content fp,
      1 ≤ ch.start_line ∧ ch.start_line ≤ ch.end_line := by
  intro ch hch
  obtain ⟨i, hi, hsome⟩ := mem_fallback_iff.mp hch
  obtain ⟨k, hk, hik⟩ := mem_pyRange0.mp hi
  have hstep_pos : (0 : Nat) < max 10 ((pySplitlines content).length / 2) := by omega
  have hiN : i < (pySplitlines content).length := by
    rw [hik]
    exact (lt_ceilDiv_iff hstep_pos _ _).mp hk
  obtain ⟨hs, he⟩ := fbChunk_shape hsome
  rw [hs, he]
  exact ⟨by omega, le_min (by omega) (by omega)⟩

theorem nodesLinesPos_append (a b : List PyNode) :
    nodesLinesPos (a ++ b) = (nodesLinesPos a && nodesLinesPos b) := by
  induction a with
  | nil => simp [nodesLinesPos]
  | cons n t ih => simp [nodesLinesPos, ih, Bool.and_assoc]

theorem walkFuel_lineno (fuel : Nat) :
    ∀ queue : List PyNode, nodesLinesPos queue = true →
      ∀ n ∈ walkFuel fuel queue, 1 ≤ n.lineno := by
  induction fuel with
  | zero =>
    intro queue _ n hn
    cases queue <;> simp [walkFuel] at hn
  | succ fuel ih =>
    intro queue hq n hn
    cases queue with
    | nil => simp [walkFuel] at hn
    | cons m rest =>
      rw [show walkFuel (fuel + 1) (m :: rest) = m :: walkFuel fuel (rest ++ m.body)
        from rfl] at hn
      cases m with
      | mk k ln body =>
        have hq' : ((decide (1 ≤ ln) && nodesLinesPos body) && nodesLinesPos rest) = true := by
          simpa [nodesLinesPos, PyNode.linesPos] using hq
        simp only [Bool.and_eq_true] at hq'
        obtain ⟨⟨hln, hbody⟩, hrest⟩ := hq'
        rcases List.mem_cons.mp hn with h1 | h1
        · subst h1
          simpa [PyNode.lineno] using of_decide_eq_true hln
        · refine ih (rest ++ (PyNode.mk k ln body).body) ?_ n h1
          rw [nodesLinesPos_append]
          simp [PyNode.body, hrest, hbody]

theorem walk_lineno {tree : PyNode} (hwf : tree.linesPos = true) :
    ∀ n ∈ walk [tree], 1 ≤ n.lineno := by
  intro n hn
  exact walkFuel_lineno _ [tree] (by simp [nodesLinesPos, hwf]) n hn

theorem pyNodeChunk_shape {lines : List (List Char)} {fp : List Char}
    {node : PyNode} {ch : Chunk} (h : pyNodeChunk lines fp node = some ch) :
    ch.start_line = (node.lineno - 1) + 1 ∧ ch.end_line = nodeEndLine node := by
  simp only [pyNodeChunk] at h
  split_ifs at h
  cases h
  exact ⟨rfl, rfl⟩

theorem lineno_le_nodeEndLine (node : PyNode) : node.lineno ≤ nodeEndLine node := by
  unfold nodeEndLine
  cases hl : node.body.getLast? with
  | none => exact le_refl _
  | some last => exact le_max_right _ _

theorem extract_python_eq_some (t : PyNode) (content fp : List Char) :
    extract_python_chunks (some t) content fp =
      (if ((walk [t]).filterMap (pyNodeChunk (pySplitlines content) fp)).isEmpty
       then fallback_chunking content fp
       else (walk [t]).filterMap (pyNodeChunk (pySplitlines content) fp)) := rfl

theorem extract_python_start_le_end (parse : Option PyNode) (content fp : List Char)
    (hwf : ∀ t, parse = some t → t.linesPos = true) :
    ∀ ch ∈ extract_python_chunks parse content fp,
      1 ≤ ch.start_line ∧ ch.start_line ≤ ch.end_line := by
  intro ch hch
  cases hp : parse with
  | none =>
    rw [hp] at hch
    exact fallback_start_le_end content fp ch hch
  | some t =>
    rw [hp, extract_python_eq_some] at hch
    split_ifs at hch
    · exact fallback_start_le_end content fp ch hch
    · obtain ⟨n, hn, hsome⟩ := List.mem_filterMap.mp hch
      have hln : 1 ≤ n.lineno := walk_lineno (hwf t hp) n hn
      obtain ⟨hs, he⟩ := pyNodeChunk_shape hsome
      have hle := lineno_le_nodeEndLine n
      rw [hs, he]
      omega

theorem lineScanChunk_shape {lines : List (List Char)} {lang : String}
    {fp : List Char} {i : Nat} {m : Matcher} {ch : Chunk}
    (h : lineScanChunk lines lang fp i m = some ch) :
    ch.start_line = i + 1 ∧ ch.end_line = find_block_end lines i ∧
      i < find_block_end lines i := by
  simp only [lineScanChunk] at h
  split_ifs at h with h1 h2 h3
  cases h
  exact ⟨rfl, rfl, h2⟩

theorem lineScanChunks_eq (patterns : List Matcher) (lang : String)
    (content fp : List Char) :
    lineScanChunks patterns lang content fp =
      (if ((List.range (pySplitlines content).length).flatMap (fun i =>
            patterns.filterMap (lineScanChunk (pySplitlines content) lang fp i))).isEmpty
       then fallback_chunking content fp
       else (List.range (pySplitlines content).length).flatMap (fun i =>
            patterns.filterMap (lineScanChunk (pySplitlines content) lang fp i))) := rfl

theorem lineScan_start_le_end (patterns : List Matcher) (lang : String)
    (content fp : List Char) :
    ∀ ch ∈ lineScanChunks patterns lang content fp,
      1 ≤ ch.start_line ∧ ch.start_line ≤ ch.end_line := by
  intro ch hch
  rw [lineScanChunks_eq] at hch
  split_ifs at hch
  · exact fallback_start_le_end content fp ch hch
  · obtain ⟨i, _, hin⟩ := List.mem_flatMap.mp hch
    obtain ⟨m, _, hsome⟩ := List.mem_filterMap.mp hin
    obtain ⟨hs, he, hlt⟩ := lineScanChunk_shape hsome
    rw [hs, he]
    omega

theorem withMeta_length (l : List Chunk) : (withMeta l).length = l.length := by
  simp [withMeta]

theorem withMeta_mem (l : List Chunk) :
    ∀ ch' ∈ withMeta l, ∃ ch ∈ l,
      ch'.start_line = ch.start_line ∧ ch'.end_line = ch.end_line := by
  intro ch' hch'
  unfold withMeta at hch'
  rw [List.mapIdx_eq_ofFn] at hch'
  obtain ⟨i, hi⟩ := (List.mem_ofFn _ _).mp hch'
  exact ⟨l.get i, l.get_mem i i.isLt, by rw [← hi], by rw [← hi]⟩

theorem withMeta_ids (l : List Chunk) :
    (withMeta l).map (fun ch => ch.chunk_id) = List.range l.length := by
  unfold withMeta
  rw [List.mapIdx_eq_enum_map, List.map_map]
  have : ((fun ch => ch.chunk_id) ∘
      Function.uncurry fun i ch => { ch with chunk_id := i, chunk_size := ch.content.length }) =
      (fun p : Nat × Chunk => p.1) := by
    funext p
    cases p
    rfl
  rw [this, List.enum_map_fst]

theorem extract_python_nonempty (parse : Option PyNode) (content fp : List Char)
    (h : ∃ c ∈ content, pyIsSpace c = false) :
    extract_python_chunks parse content fp ≠ [] := by
  cases parse with
  | none => exact fallback_nonempty h
  | some t =>
    rw [extract_python_eq_some]
    split_ifs with hcond
    · exact fallback_nonempty h
    · simpa using hcond

theorem lineScan_nonempty (patterns : List Matcher) (lang : String)
    (content fp : List Char) (h : ∃ c ∈ content, pyIsSpace c = false) :
    lineScanChunks patterns lang content fp ≠ [] := by
  rw [lineScanChunks_eq]
  split_ifs with hcond
  · exact fallback_nonempty h
  · simpa using hcond

theorem withMeta_ne_nil {l : List Chunk} (h : l ≠ []) : withMeta l ≠ [] := by
  intro hnil
  have := withMeta_length l
  rw [hnil] at this
  exact h (List.length_eq_zero.mp this.symm)

theorem chunk_document_start_le_end (o : ChunkOracles)
    (content file_path file_type : List Char)
    (hwf : ∀ t, o.parse = some t → t.linesPos = true) :
    ∀ ch ∈ chunk_document o content file_path file_type,
      1 ≤ ch.start_line ∧ ch.start_line ≤ ch.end_line := by
  simp only [chunk_document]
  split_ifs with h0 h1 h2 h3 h4 h5
  · intro ch hch
    exact absurd hch (List.not_mem_nil ch)
  all_goals
    intro ch hch
    obtain ⟨ch₀, hm, hs, he⟩ := withMeta_mem _ ch hch
    rw [hs, he]
  · exact extract_python_start_le_end o.parse content file_path hwf ch₀ hm
  · exact lineScan_start_le_end o.js "javascript" content file_path ch₀ hm
  · exact lineScan_start_le_end o.ts "typescript" content file_path ch₀ hm
  · exact lineScan_start_le_end o.java "java" content file_path ch₀ hm
  · exact lineScan_start_le_end o.cpp "cpp" content file_path ch₀ hm
  · exact fallback_start_le_end content file_path ch₀ hm

theorem chunk_document_dense_ids (o : ChunkOracles)
    (content file_path file_type : List Char) :
    (chunk_document o content file_path file_type).map (fun ch => ch.chunk_id) =
      List.range (chunk_document o content file_path file_type).length := by
  simp only [chunk_document]
  split_ifs <;> simp [withMeta_ids, withMeta_length]

/-- C4, counterexample: on a Python file with a nested method, `ast.walk`
yields nodes breadth-first, so the chunks come out as class `A` (line 1),
top-level `f` (line 4), then the nested method `m` (line 2) -- not ordered by
`start_line` (chunk ids are still dense). -/
theorem chunk_document_python_order_counterexample :
    (chunk_document pyExampleOracles pyExampleContent ("a.py").data (".py").data).map
      (fun ch => ch.start_line) = [1, 4, 2] ∧
    (chunk_document pyExampleOracles pyExampleContent ("a.py").data (".py").data).map
      (fun ch => ch.chunk_id) = [0, 1, 2] ∧
    ¬ List.Pairwise (fun a b => a ≤ b)
        ((chunk_document pyExampleOracles pyExampleContent ("a.py").data (".py").data).map
          (fun ch => ch.start_line)) := by
  refine ⟨by decide, by decide, by decide⟩

/-- C4, amended: every chunk produced by `chunk_document` satisfies
`1 ≤ start_line ≤ end_line` (for Python input, assuming the 1-based line
numbers `ast.parse` always produces), and `chunk_id` values are dense --
`0, 1, 2, ...` in emission order.  The chunks of one file are, however, not
always totally ordered by `start_line`: `ast.walk` is breadth-first, so a
nested Python definition is emitted after later top-level definitions. -/
theorem chunk_document_bounds_and_ids (o : ChunkOracles)
    (content file_path file_type : List Char)
    (hwf : ∀ t, o.parse = some t → t.linesPos = true) :
    (∀ ch ∈ chunk_document o content file_path file_type,
        1 ≤ ch.start_line ∧ ch.start_line ≤ ch.end_line) ∧
    (chunk_document o content file_path file_type).map (fun ch => ch.chunk_id) =
      List.range (chunk_document o content file_path file_type).length :=
  ⟨chunk_document_start_le_end o content file_path file_type hwf,
   chunk_document_dense_ids o content file_path file_type⟩

/-- Witness for `chunk_document_bounds_and_ids` at the concrete Python
example (its parse tree has 1-based linenos). -/
theorem chunk_document_bounds_and_ids_witness :
    (∀ ch ∈ chunk_document pyExampleOracles pyExampleContent ("a.py").data (".py").data,
        1 ≤ ch.start_line ∧ ch.start_line ≤ ch.end_line) ∧
    (chunk_document pyExampleOracles pyExampleContent ("a.py").data (".py").data).map
        (fun ch => ch.chunk_id) =
      List.range (chunk_document pyExampleOracles pyExampleContent
        ("a.py").data (".py").data).length :=
  chunk_document_bounds_and_ids pyExampleOracles pyExampleContent ("a.py").data
    (".py").data (fun t ht => by
      injection ht with h
      rw [← h]
      decide)

/-- C5: `chunk_document` is total -- every failure path (a `SyntaxError` from
`ast.parse`, an unsupported extension, no recognised construct) degrades to
fallback chunking rather than propagating.  Content whose stripped length is
below 10 yields zero chunks; content at or above the threshold always yields
at least one chunk; and a failed Python parse returns exactly the (metadata-
annotated) fallback chunks. -/
theorem chunk_document_never_fails (o : ChunkOracles)
    (content file_path file_type : List Char) :
    ((pyStrip content).length < 10 →
      chunk_document o content file_path file_type = []) ∧
    (10 ≤ (pyStrip content).length →
      chunk_document o content file_path file_type ≠ []) ∧
    (o.parse = none → get_language_from_extension file_type = some "python" →
      10 ≤ (pyStrip content).length →
      chunk_document o content file_path file_type =
        withMeta (fallback_chunking content file_path)) := by
  have hgate : ∀ (h : 10 ≤ (pyStrip content).length),
      (content.isEmpty || decide ((pyStrip content).length < 10)) = false := by
    intro h
    have hne : content ≠ [] := by
      intro hc
      rw [hc] at h
      simp [pyStrip] at h
    simp [hne, Nat.not_lt.mpr h]
  have hnws : ∀ (h : 10 ≤ (pyStrip content).length),
      ∃ c ∈ content, pyIsSpace c = false := by
    intro h
    have hsne : pyStrip content ≠ [] := by
      intro hc
      rw [hc] at h
      simp at h
    by_contra hall
    push_neg at hall
    exact hsne (pyStrip_eq_nil_iff.mpr (fun c hc => by
      have := hall c hc
      simpa using this))
  refine ⟨?_, ?_, ?_⟩
  · intro h
    simp only [chunk_document]
    rw [if_pos (by simp [h])]
  · intro h
    simp only [chunk_document]
    rw [if_neg (by simp [hgate h])]
    split_ifs with h1 h2 h3 h4 h5
    · exact withMeta_ne_nil (extract_python_nonempty o.parse content file_path (hnws h))
    · exact withMeta_ne_nil (lineScan_nonempty o.js "javascript" content file_path (hnws h))
    · exact withMeta_ne_nil (lineScan_nonempty o.ts "typescript" content file_path (hnws h))
    · exact withMeta_ne_nil (lineScan_nonempty o.java "java" content file_path (hnws h))
    · exact withMeta_ne_nil (lineScan_nonempty o.cpp "cpp" content file_path (hnws h))
    · exact withMeta_ne_nil (fallback_nonempty (hnws h))
  · intro hparse hlang h
    simp only [chunk_document]
    rw [if_neg (by simp [hgate h]), if_pos hlang, hparse]
    rfl

/-- Witness for `chunk_document_never_fails`: a 2-character file yields no
chunks; a 14-character file with a failing Python parse yields exactly the
fallback chunks (in particular at least one). -/
theorem chunk_document_never_fails_witness :
    chunk_document failingParseOracles ("hi").data ("f").data (".py").data = [] ∧
    chunk_document failingParseOracles ("abcdefghij\nxyz").data ("f").data
      (".py").data ≠ [] ∧
    chunk_document failingParseOracles ("abcdefghij\nxyz").data ("f").data
        (".py").data =
      withMeta (fallback_chunking ("abcdefghij\nxyz").data ("f").data) :=
  ⟨(chunk_document_never_fails failingParseOracles ("hi").data ("f").data
      (".py").data).1 (by decide),
   (chunk_document_never_fails failingParseOracles ("abcdefghij\nxyz").data
      ("f").data (".py").data).2.1 (by decide),
   (chunk_document_never_fails failingParseOracles ("abcdefghij\nxyz").data
      ("f").data (".py").data).2.2 rfl (by decide) (by decide)⟩

end GitSleuth
